import Mathlib

/-!
Verification development for the gopsql/watch repository: a file-watching
build-and-run supervisor.  The definitions below are a shallow embedding of
the Go source files `watch.go` and `runner.go` (plus the small parts of the
Go standard library they call: `path.Split`, `path.Clean`, `path.Dir`,
`filepath.Abs`, `strings.TrimSpace`).  Machine-level details that cannot
affect the verified properties (I/O errors are modelled as oracles, process
handles as abstract records, timestamps as naturals) are made explicit as
parameters.
-/

/-- Timestamps (`time.Time`); `After` is strict `>`.  The Go zero value
`time.Time{}` is modelled as `0`. -/
abbrev Time := Nat

namespace GoPath

/-- Split a character list at slashes.  `splitSlash cs` models the component
decomposition `strings.Split(p, "/")` that underlies `path.Clean`. -/
def splitSlash : List Char → List (List Char)
  | [] => [[]]
  | c :: cs =>
    if c = '/' then [] :: splitSlash cs
    else
      match splitSlash cs with
      | g :: gs => (c :: g) :: gs
      | [] => [[c]]

/-- Join components with slashes (`strings.Join(comps, "/")`). -/
def joinSlash : List (List Char) → List Char
  | [] => []
  | [s] => s
  | s :: rest => s ++ '/' :: joinSlash rest

/-- The component stack of Go `path.Clean`: empty and `.` components are
skipped, `..` pops the last real component (dropped at the root when the
path is rooted, kept when not), anything else is pushed. -/
def cleanStack (rooted : Bool) : List (List Char) → List (List Char) → List (List Char)
  | stack, [] => stack.reverse
  | stack, c :: cs =>
    if c = [] ∨ c = ['.'] then cleanStack rooted stack cs
    else if c = ['.', '.'] then
      match stack with
      | [] => if rooted then cleanStack rooted [] cs else cleanStack rooted [['.', '.']] cs
      | top :: rest =>
        if top = ['.', '.'] then cleanStack rooted (c :: stack) cs
        else cleanStack rooted rest cs
    else cleanStack rooted (c :: stack) cs

/-- Go `path.Clean` on character lists. -/
def goCleanC (cs : List Char) : List Char :=
  match cs with
  | [] => ['.']
  | c :: _ =>
    let rooted : Bool := c = '/'
    let comps := cleanStack rooted [] (splitSlash cs)
    if rooted then '/' :: joinSlash comps
    else if comps = [] then ['.'] else joinSlash comps

/-- Go `path.Clean`. -/
def goClean (p : String) : String := ⟨goCleanC p.toList⟩

/-- Everything except a slash (the scan predicate locating the final
separator in `path.Split`). -/
def notSlash (c : Char) : Bool := c ≠ '/'

/-- Go `path.Split` on character lists: split after the final slash
(`path[:i+1], path[i+1:]` for `i` the last index of `'/'`). -/
def goSplitPathC (cs : List Char) : List Char × List Char :=
  ((cs.reverse.dropWhile notSlash).reverse,
   (cs.reverse.takeWhile notSlash).reverse)

/-- Go `path.Split`. -/
def goSplitPath (p : String) : String × String :=
  (⟨(goSplitPathC p.toList).1⟩, ⟨(goSplitPathC p.toList).2⟩)

/-- Go `path.Dir`: the directory part of `Split`, cleaned. -/
def goDir (p : String) : String := goClean (goSplitPath p).1

/-- Go `filepath.IsAbs` (unix): nonempty and the first byte is `'/'`. -/
def isAbsPath (p : String) : Bool :=
  match p.toList with
  | c :: _ => c = '/'
  | [] => false

/-- Go `filepath.Abs` (unix) given the working directory `cwd`:
an absolute path is cleaned, a relative one is joined onto `cwd`
(`Join` cleans as well).  `cwd` is assumed nonempty (`os.Getwd` never
returns an empty path). -/
def goAbs (cwd p : String) : String :=
  if isAbsPath p then goClean p else goClean (cwd ++ "/" ++ p)

/-- ASCII whitespace recognised by Go `strings.TrimSpace`. -/
def isSpaceChar (c : Char) : Bool :=
  c == ' ' || c == '\t' || c == '\n' || c == '\x0b' || c == '\x0c' || c == '\r'

/-- Go `strings.TrimSpace` (ASCII fragment; the `go list -m` output the code
trims is ASCII module-path text plus a trailing newline). -/
def goTrimSpace (s : String) : String :=
  ⟨((s.toList.dropWhile isSpaceChar).reverse.dropWhile isSpaceChar).reverse⟩

/-- Go `strings.HasSuffix`. -/
def goHasSuffix (s suf : String) : Bool :=
  List.isSuffixOf suf.toList s.toList

end GoPath

open GoPath

/-- `isVersionElement` from `watch.go`: `v` followed by digits, excluding a
second byte `0` and the exact string `v1`. -/
def isVersionElement (s : String) : Bool :=
  match s.toList with
  | c0 :: c1 :: rest =>
    if c0 ≠ 'v' ∨ c1 = '0' ∨ (c1 = '1' ∧ rest = []) then false
    else (c1 :: rest).all (fun c => '0' ≤ c ∧ c ≤ '9')
  | _ => false

/-- `defaultExecName` from `watch.go`.  `runtime.GOOS == "windows"` is the
parameter `isWindows`. -/
def defaultExecName (isWindows : Bool) (p : String) : String :=
  let elem := (goSplitPath p).2
  let elem := if isVersionElement elem then (goSplitPath (goDir p)).2 else elem
  if isWindows then elem ++ ".exe" else elem

/-- Assemble an absolute path from its list of segments (used to state
properties of `defaultExecName` over arbitrary well-formed paths). -/
def mkPathC (segs : List (List Char)) : List Char :=
  '/' :: joinSlash segs

/-- String form of `mkPathC`. -/
def mkPath (segs : List String) : String :=
  ⟨mkPathC (segs.map String.toList)⟩

/-- A plain path segment: nonempty, no slash, not `.` or `..`. -/
def plainSeg (s : String) : Prop :=
  s.toList ≠ [] ∧ s.toList ≠ ['.'] ∧ s.toList ≠ ['.', '.'] ∧ ∀ c ∈ s.toList, c ≠ '/'

instance : DecidablePred plainSeg := fun s => by
  unfold plainSeg; infer_instance

/-- `appendStringIfMissing` from `watch.go`: scan the slice, return it
unchanged on a match, otherwise append. -/
def appendStringIfMissing (slice : List String) (element : String) : List String :=
  if element ∈ slice then slice else slice ++ [element]

/-- The `watch.IgnoreDirectory` method body: empty names are skipped, the
rest go through `appendStringIfMissing`; the receiver field `ignoreDirs` is
the first argument. -/
def ignoreDirectory (ignoreDirs : List String) (dirs : List String) : List String :=
  dirs.foldl (fun acc dir => if dir = "" then acc else appendStringIfMissing acc dir)
    ignoreDirs

/-- A directory tree: a name plus the subdirectories, in the order
`filepath.WalkDir` visits them.  Regular files are omitted: the walk
callback in `dirsWithName` returns `nil` for every non-directory before
looking at its name, so files cannot affect the result. -/
inductive DirTree where
  | node (name : String) (subs : List DirTree)
deriving Repr

/-- Name of the root entry of a tree. -/
def DirTree.name : DirTree → String
  | node n _ => n

/-- Subdirectories of the root entry of a tree. -/
def DirTree.subs : DirTree → List DirTree
  | node _ s => s

/-- The recursion of `filepath.WalkDir` inside `dirsWithName`, below the
root: each directory whose name is in `names` is collected and its subtree
skipped (`filepath.SkipDir`); otherwise the walk descends. -/
def walkForest (names : List String) (path : String) : List DirTree → List String
  | [] => []
  | .node n subs :: rest =>
    (if n ∈ names then [path ++ "/" ++ n]
     else walkForest names (path ++ "/" ++ n) subs) ++ walkForest names path rest

/-- `dirsWithName` from `watch.go`: empty name list short-circuits to an
empty result; otherwise `filepath.WalkDir` visits `root` itself first (its
entry name is the tree's root name) and then the subtree. -/
def dirsWithName (root : String) (t : DirTree) (names : List String) : List String :=
  if names = [] then []
  else if t.name ∈ names then [root]
  else walkForest names root t.subs

/-- Spec side for the `dirsWithName` property: every directory strictly
below the walk root, tagged with its full path, its own name and the names
of its strict ancestors up to and including the root entry. -/
def allDirs (path : String) (ancs : List String) : List DirTree → List (String × String × List String)
  | [] => []
  | .node n subs :: rest =>
    (path ++ "/" ++ n, n, ancs) ::
      (allDirs (path ++ "/" ++ n) (n :: ancs) subs ++ allDirs path ancs rest)

/-- Spec side: a directory counts exactly when its own name matches one of
the given names and no ancestor's name does. -/
def matchedNoAncestor (names : List String) (x : String × String × List String) : Bool :=
  decide (x.2.1 ∈ names) && x.2.2.all (fun a => decide (a ∉ names))

/-- Spec side of the claim about `dirsWithName`: with a nonempty name list,
the paths of exactly those directories whose base name matches one of the
names and that have no matching proper ancestor; empty name list gives an
empty result. -/
def specDirs (root : String) (t : DirTree) (names : List String) : List String :=
  if names = [] then []
  else
    (((root, t.name, ([] : List String)) :: allDirs root [t.name] t.subs).filter
        (matchedNoAncestor names)).map (fun x => x.1)

namespace Runner

/-- An `exec.Cmd` as far as the supervisor inspects it: whether `Process`
is non-nil, and `ProcessState` (`none` = nil, `some b` with `b` the value
of `ProcessState.Exited()`). -/
structure Cmd where
  hasProcess : Bool
  exitedState : Option Bool
deriving DecidableEq, Repr

/-- The mutable fields of `runner` that the verified properties touch:
`command` (nil when no handle) and `starttime`. -/
structure State where
  command : Option Cmd
  starttime : Time
deriving DecidableEq, Repr

/-- Oracle for one call to `runner.Kill`: result of the initial
`Process.Signal(os.Interrupt)` (or the initial `Process.Kill` on Windows),
result of the escalated `Process.Kill` (only logged), and whether the
`done` channel fired before the 3-second timer. -/
structure KillEnv where
  signalErr : Option String
  graceKillErr : Option String
  exitedWithinGrace : Bool
deriving DecidableEq, Repr

/-- Observable actions of `runner.Kill`. -/
inductive KillAct where
  | interrupt
  | forceKill
deriving DecidableEq, Repr

/-- `runner.Kill` from `runner.go`: guarded by `command != nil &&
command.Process != nil`; on Windows the first action is already a forced
kill, elsewhere an interrupt signal; an error from that first action is
returned at once (the handle is left as is); otherwise wait up to 3 seconds
on `done`, escalate to a forced kill on timeout (its error only logged),
and set `command = nil` after the select in either case. -/
def kill (isWindows : Bool) (r : State) (env : KillEnv) :
    State × List KillAct × Option String :=
  match r.command with
  | some c =>
    if c.hasProcess then
      let firstAct := if isWindows then KillAct.forceKill else KillAct.interrupt
      match env.signalErr with
      | some e => (r, [firstAct], some e)
      | none =>
        if env.exitedWithinGrace then ({ r with command := none }, [firstAct], none)
        else ({ r with command := none }, [firstAct, KillAct.forceKill], none)
    else (r, [], none)
  | none => (r, [], none)

/-- `runner.Exited` from `runner.go`. -/
def exited (r : State) : Bool :=
  match r.command with
  | some c =>
    match c.exitedState with
    | some b => b
    | none => false
  | none => false

/-- `runner.needsRefresh` from `runner.go`: a failed `os.Stat` of the
binary yields `false`; otherwise the binary's modification time must be
strictly after `starttime`. -/
def needsRefresh (starttime : Time) (statBin : Option Time) : Bool :=
  match statBin with
  | none => false
  | some t => starttime < t

/-- Oracle for one call to `runner.Run`: the `os.Stat(r.bin)` result (the
binary's modification time, `none` on error), the oracle for a possible
`Kill`, whether the pipes and `Start` succeed, and the clock value recorded
as the new `starttime`. -/
structure RunEnv where
  statBin : Option Time
  killEnv : KillEnv
  spawnErr : Option String
  now : Time
deriving DecidableEq, Repr

/-- Observable actions of `runner.Run`. -/
inductive RunAct where
  | staleKill
  | spawn
deriving DecidableEq, Repr

/-- `runner.runBin` from `runner.go`: `r.command` is assigned the fresh
`exec.Cmd` unconditionally; on a pipe or `Start` error that command has no
`Process` and the error is returned; on success the process is live and
`starttime` is set to the current time. -/
def runBin (r : State) (env : RunEnv) : State × Option String :=
  match env.spawnErr with
  | some e => ({ r with command := some ⟨false, none⟩ }, some e)
  | none => ({ command := some ⟨true, none⟩, starttime := env.now }, none)

/-- `runner.Run` from `runner.go`: kill first when `needsRefresh`, then
spawn via `runBin` only when there is no command or the previous one has
exited. -/
def run (isWindows : Bool) (r : State) (env : RunEnv) :
    State × List RunAct × Option String :=
  let r1 := if needsRefresh r.starttime env.statBin then (kill isWindows r env.killEnv).1 else r
  let acts : List RunAct :=
    if needsRefresh r.starttime env.statBin then [RunAct.staleKill] else []
  if r1.command = none ∨ exited r1 then
    ((runBin r1 env).1, acts ++ [RunAct.spawn], (runBin r1 env).2)
  else (r1, acts, none)

end Runner

namespace Orch

/-- A watcher `Event` as far as the loop inspects it: the affected path and
the modification timestamp `event.FileInfo.ModTime()` (the watcher always
attaches a `FileInfo`, a synthetic one for triggered events). -/
structure Event where
  path : String
  modTime : Time
deriving DecidableEq, Repr

/-- Oracle for the externally-determined outcomes inside one event
iteration of `watch.Do`: the two `os.Stat(event.Path)` calls around the
tidy step, whether `build.Run(true)` returns nil, and the clock value
recorded as `lastPrebuildAt` after a prebuild. -/
structure CycleEnv where
  statBefore : Option Time
  statAfter : Option Time
  buildOk : Bool
  now : Time
deriving DecidableEq, Repr

/-- The configuration fields of `watch` that steer one event iteration. -/
structure Cfg where
  isTest : Bool
  noRun : Bool
  hasPrebuild : Bool
  cleanFirst : Bool
deriving DecidableEq, Repr

/-- The mutable loop state of `watch.Do`: the `lastPrebuildAt` pointer and
the `modFileTime` map (association list, most recent entry first). -/
structure State where
  lastPrebuildAt : Option Time
  modFileTime : List (String × Time)
deriving DecidableEq, Repr

/-- Go map lookup `modFileTime[p]`: a missing key yields the zero
`time.Time`, modelled as `0`. -/
def lookupModTime (m : List (String × Time)) (p : String) : Time :=
  match m.lookup p with
  | some t => t
  | none => 0

/-- The cycle steps `watch.Do` can run for one event, in order. -/
inductive Action where
  | tidyRun
  | appKill
  | prebuildRun
  | cleanRun
  | buildRun
  | appRun
deriving DecidableEq, Repr

/-- The dependency-manifest special case of `watch.Do` (the `.mod` block):
returns the actions it performed and `none` when the iteration `continue`s
(stat error, unchanged modification time, or stat error after tidy),
otherwise the updated state.  Note the tidy command has already run in the
post-tidy stat-error case. -/
def modStep (st : State) (ev : Event) (env : CycleEnv) : List Action × Option State :=
  if goHasSuffix ev.path ".mod" then
    match env.statBefore with
    | none => ([], none)
    | some before =>
      if before = lookupModTime st.modFileTime ev.path then ([], none)
      else
        match env.statAfter with
        | none => ([Action.tidyRun], none)
        | some after =>
          ([Action.tidyRun],
           some { st with modFileTime := (ev.path, after) :: st.modFileTime })
  else ([], some st)

/-- The unconditional tail of a cycle in `watch.Do`: kill the app, run the
prebuild command when configured (recording `lastPrebuildAt`), run the
clean command when configured, run build/test, and launch the app exactly
when the build returned nil, test mode is off and no-run is off. -/
def cycleSteps (cfg : Cfg) (st : State) (env : CycleEnv) : State × List Action :=
  ({ st with lastPrebuildAt :=
       if cfg.hasPrebuild then some env.now else st.lastPrebuildAt },
   Action.appKill ::
     (if cfg.hasPrebuild then [Action.prebuildRun] else []) ++
     (if cfg.cleanFirst then [Action.cleanRun] else []) ++
     [Action.buildRun] ++
     (if env.buildOk ∧ cfg.isTest = false ∧ cfg.noRun = false then [Action.appRun]
      else []))

/-- One cycle after the prebuild-suppression check: the `.mod` special
case, then (unless it `continue`d) the remaining steps. -/
def runCycle (cfg : Cfg) (st : State) (ev : Event) (env : CycleEnv) :
    State × List Action :=
  match modStep st ev env with
  | (acts, none) => (st, acts)
  | (acts, some st') =>
    let (st'', acts') := cycleSteps cfg st' env
    (st'', acts ++ acts')

/-- One full event iteration of `watch.Do`: when `lastPrebuildAt` is
recorded it is cleared, and the event is discarded when that timestamp is
after the event's modification time; otherwise the cycle runs. -/
def handleEvent (cfg : Cfg) (st : State) (ev : Event) (env : CycleEnv) :
    State × List Action :=
  match st.lastPrebuildAt with
  | some t =>
    let st' := { st with lastPrebuildAt := none }
    if ev.modTime < t then (st', []) else runCycle cfg st' ev env
  | none => runCycle cfg st ev env

/-- One message from the `select` in `watch.Do`: a watcher event (with its
oracle), a watcher error, or the closed signal. -/
inductive Msg where
  | fsEvent (ev : Event) (env : CycleEnv)
  | watchErr (e : String)
  | closed
deriving Repr

/-- The event loop of `watch.Do` over a stream of messages: events drive
cycles and loop on, an error is returned (`some (some e)`), the closed
signal returns nil (`some none`); an exhausted stream (`none`) means the
loop is still waiting. -/
def doLoop (cfg : Cfg) (st : State) : List Msg → Option (Option String)
  | [] => none
  | Msg.fsEvent ev env :: rest => doLoop cfg (handleEvent cfg st ev env).1 rest
  | Msg.watchErr e :: _ => some (some e)
  | Msg.closed :: _ => some none

/-- Classification of a message as a loop terminator (spec side, for the
statement of the termination property). -/
def termRes : Msg → Option (Option String)
  | Msg.fsEvent _ _ => none
  | Msg.watchErr e => some (some e)
  | Msg.closed => some none

/-- Oracle for the output-name derivation in `watch.Do`: the raw stdout of
`go list -m` when that command succeeds, `none` on error. -/
structure OutputEnv where
  goListOut : Option String
deriving Repr

/-- The output-resolution prologue of `watch.Do` (lines 173–191): an empty
configured output is derived from the trimmed nonempty `go list -m` result,
falling back to the (already absolute) watched directory, through
`defaultExecName`; the result is then made absolute. -/
def resolveOutput (isWindows : Bool) (cfgOutput : String) (env : OutputEnv)
    (directory cwd : String) : String :=
  let output :=
    if cfgOutput = "" then
      let p :=
        match env.goListOut with
        | some raw => if goTrimSpace raw ≠ "" then goTrimSpace raw else ""
        | none => ""
      let p := if p = "" then directory else p
      defaultExecName isWindows p
    else cfgOutput
  goAbs cwd output

/-- The three places `watch.Do` uses the resolved output before the loop:
the app runner's binary, the `go build` argument list, and the watcher's
ignore entry. -/
structure Setup where
  appBin : String
  buildArgs : List String
  watcherIgnore : String
deriving Repr

/-- The setup portion of `watch.Do` that touches the output path: the
resolved output becomes the app runner's binary, the `-o` argument of
`go build` (test mode builds a `go test` argument list without it), and
the watcher ignore entry. -/
def doSetup (isWindows : Bool) (cfgOutput : String) (env : OutputEnv)
    (directory cwd : String) (isTest : Bool) (goBuildArgs : List String) : Setup :=
  let output := resolveOutput isWindows cfgOutput env directory cwd
  { appBin := output
    buildArgs :=
      if isTest then "test" :: goBuildArgs
      else "build" :: "-o" :: output :: goBuildArgs
    watcherIgnore := output }

end Orch

namespace Orch

/-- Every action the `.mod` special case performs is a tidy run. -/
theorem modStep_acts_tidy (st : State) (ev : Event) (env : CycleEnv) :
    ∀ a ∈ (modStep st ev env).1, a = Action.tidyRun := by
  unfold modStep
  repeat' split
  all_goals simp_all

/-- The `.mod` special case never touches `lastPrebuildAt`. -/
theorem modStep_some_state (st : State) (ev : Event) (env : CycleEnv) (st' : State)
    (h : (modStep st ev env).2 = some st') : st'.lastPrebuildAt = st.lastPrebuildAt := by
  unfold modStep at h
  repeat' split at h
  all_goals simp_all
  all_goals rw [← h]

/-- Action-list facts for the unconditional cycle tail. -/
theorem cycleSteps_acts (cfg : Cfg) (st : State) (env : CycleEnv) :
    (Action.appRun ∈ (cycleSteps cfg st env).2 ↔
      (env.buildOk = true ∧ cfg.isTest = false ∧ cfg.noRun = false)) ∧
    Action.buildRun ∈ (cycleSteps cfg st env).2 ∧
    (Action.prebuildRun ∈ (cycleSteps cfg st env).2 ↔ cfg.hasPrebuild = true) := by
  unfold cycleSteps
  split_ifs <;> simp_all

/-- `lastPrebuildAt` after the cycle tail. -/
theorem cycleSteps_state (cfg : Cfg) (st : State) (env : CycleEnv) :
    (cycleSteps cfg st env).1.lastPrebuildAt =
      if cfg.hasPrebuild then some env.now else st.lastPrebuildAt := rfl

end Orch

/-- C1: in every event iteration, the run step executes exactly when the
cycle reached the build step, the build command returned nil, test mode is
off and no-run is off; in particular a failed build never launches the
app. -/
theorem run_iff_build_success (cfg : Orch.Cfg) (st : Orch.State) (ev : Orch.Event)
    (env : Orch.CycleEnv) :
    Orch.Action.appRun ∈ (Orch.handleEvent cfg st ev env).2 ↔
      (Orch.Action.buildRun ∈ (Orch.handleEvent cfg st ev env).2 ∧
       env.buildOk = true ∧ cfg.isTest = false ∧ cfg.noRun = false) := by
  have hrc : ∀ s : Orch.State,
      Orch.Action.appRun ∈ (Orch.runCycle cfg s ev env).2 ↔
        (Orch.Action.buildRun ∈ (Orch.runCycle cfg s ev env).2 ∧
         env.buildOk = true ∧ cfg.isTest = false ∧ cfg.noRun = false) := by
    intro s
    have hms := Orch.modStep_acts_tidy s ev env
    unfold Orch.runCycle
    rcases h : Orch.modStep s ev env with ⟨acts, ost⟩
    rw [h] at hms
    have hnoApp : Orch.Action.appRun ∉ acts := fun hmem => by
      have := hms _ hmem; simp_all
    have hnoBuild : Orch.Action.buildRun ∉ acts := fun hmem => by
      have := hms _ hmem; simp_all
    rcases ost with _ | st'
    · dsimp only
      simp [hnoApp, hnoBuild]
    · dsimp only
      have hc := Orch.cycleSteps_acts cfg st' env
      rcases hcs : Orch.cycleSteps cfg st' env with ⟨st'', acts'⟩
      rw [hcs] at hc
      dsimp only at hc ⊢
      simp only [List.mem_append]
      constructor
      · rintro (hmem | hmem)
        · exact absurd hmem hnoApp
        · exact ⟨Or.inr hc.2.1, hc.1.mp hmem⟩
      · rintro ⟨_, hb⟩
        exact Or.inr (hc.1.mpr hb)
  unfold Orch.handleEvent
  rcases hl : st.lastPrebuildAt with _ | t
  · exact hrc st
  · dsimp only
    split
    · simp
    · exact hrc _

/-- C2: when a prebuild completion timestamp is recorded, an event older
than it is discarded (no cycle step runs, the timestamp is cleared, nothing
else changes); and whatever the outcome of the comparison, the recorded
timestamp is consumed by this one check: after the iteration it is gone
unless a new prebuild execution in this very cycle re-recorded it. -/
theorem prebuild_suppression (cfg : Orch.Cfg) (st : Orch.State) (ev : Orch.Event)
    (env : Orch.CycleEnv) (t : Time) (h : st.lastPrebuildAt = some t) :
    (ev.modTime < t →
      Orch.handleEvent cfg st ev env = ({ st with lastPrebuildAt := none }, [])) ∧
    (¬ ev.modTime < t →
      (Orch.handleEvent cfg st ev env).1.lastPrebuildAt =
        (if Orch.Action.prebuildRun ∈ (Orch.handleEvent cfg st ev env).2 then
          some env.now else none)) := by
  have hrc : ∀ s : Orch.State, s.lastPrebuildAt = none →
      (Orch.runCycle cfg s ev env).1.lastPrebuildAt =
        (if Orch.Action.prebuildRun ∈ (Orch.runCycle cfg s ev env).2 then
          some env.now else none) := by
    intro s hs
    have hms := Orch.modStep_acts_tidy s ev env
    unfold Orch.runCycle
    rcases hm : Orch.modStep s ev env with ⟨acts, ost⟩
    rw [hm] at hms
    have hnoPb : Orch.Action.prebuildRun ∉ acts := fun hmem => by
      have := hms _ hmem; simp_all
    rcases ost with _ | st'
    · dsimp only
      rw [hs, if_neg hnoPb]
    · dsimp only
      have hst' : st'.lastPrebuildAt = none := by
        rw [Orch.modStep_some_state s ev env st' (by rw [hm])]; exact hs
      have hc := (Orch.cycleSteps_acts cfg st' env).2.2
      rcases hcs : Orch.cycleSteps cfg st' env with ⟨st'', acts'⟩
      have hst'' : st''.lastPrebuildAt =
          (if cfg.hasPrebuild then some env.now else none) := by
        have := Orch.cycleSteps_state cfg st' env
        rw [hcs, hst'] at this; exact this
      rw [hcs] at hc
      dsimp only at hc
      dsimp only
      rw [hst'']
      by_cases hp : cfg.hasPrebuild
      · simp [hp, List.mem_append, hc.mpr hp]
      · have hnd : Orch.Action.prebuildRun ∉ acts' := fun hmem => hp (by
          have := hc.mp hmem; simp_all)
        simp only [List.mem_append]
        simp [hp, hnoPb, hnd]
  unfold Orch.handleEvent
  rw [h]
  dsimp only
  constructor
  · intro hlt
    rw [if_pos hlt]
  · intro hlt
    rw [if_neg hlt]
    exact hrc _ rfl

/-- Witness for the prebuild-suppression theorem at a concrete input: a
recorded prebuild timestamp 10 discards an event with modification time 5. -/
theorem prebuild_suppression_witness :
    Orch.handleEvent ⟨false, false, false, false⟩ ⟨some 10, []⟩ ⟨"a.go", 5⟩
        ⟨none, none, true, 0⟩ =
      ({ lastPrebuildAt := none, modFileTime := [] }, []) :=
  (prebuild_suppression ⟨false, false, false, false⟩ ⟨some 10, []⟩ ⟨"a.go", 5⟩
      ⟨none, none, true, 0⟩ 10 rfl).1 (by decide)

/-- Counterexample to the claim that a `.mod` event whose modification time
equals the recorded one still kills the app and runs the build: at this
concrete input the whole event is discarded (the action list is empty). -/
theorem mod_equal_time_counterexample :
    ¬ (Orch.Action.tidyRun ∉ (Orch.handleEvent ⟨false, false, false, false⟩
          ⟨none, [("/w/go.mod", 7)]⟩ ⟨"/w/go.mod", 5⟩ ⟨some 7, some 7, true, 0⟩).2 ∧
       Orch.Action.appKill ∈ (Orch.handleEvent ⟨false, false, false, false⟩
          ⟨none, [("/w/go.mod", 7)]⟩ ⟨"/w/go.mod", 5⟩ ⟨some 7, some 7, true, 0⟩).2 ∧
       Orch.Action.buildRun ∈ (Orch.handleEvent ⟨false, false, false, false⟩
          ⟨none, [("/w/go.mod", 7)]⟩ ⟨"/w/go.mod", 5⟩ ⟨some 7, some 7, true, 0⟩).2) := by
  decide

/-- C3 (amended): a `.mod` event whose stat succeeds with a modification
time equal to the recorded one for that exact path is discarded entirely:
the tidy command does not run, and no further cycle step runs either (the
app is not killed and the build does not run); the state is unchanged. -/
theorem mod_equal_time_discards (cfg : Orch.Cfg) (st : Orch.State) (ev : Orch.Event)
    (env : Orch.CycleEnv) (m : Time)
    (h0 : st.lastPrebuildAt = none)
    (h1 : goHasSuffix ev.path ".mod" = true)
    (h2 : env.statBefore = some m)
    (h3 : m = Orch.lookupModTime st.modFileTime ev.path) :
    Orch.handleEvent cfg st ev env = (st, []) := by
  have hm : Orch.modStep st ev env = ([], none) := by
    unfold Orch.modStep
    simp [h1, h2, h3]
  unfold Orch.handleEvent Orch.runCycle
  rw [h0]
  dsimp only
  rw [hm]

/-- Witness for the amended `.mod` theorem at the counterexample's input. -/
theorem mod_equal_time_discards_witness :
    Orch.handleEvent ⟨false, false, false, false⟩ ⟨none, [("/w/go.mod", 7)]⟩
        ⟨"/w/go.mod", 5⟩ ⟨some 7, some 7, true, 0⟩ =
      (⟨none, [("/w/go.mod", 7)]⟩, []) :=
  mod_equal_time_discards ⟨false, false, false, false⟩ ⟨none, [("/w/go.mod", 7)]⟩
    ⟨"/w/go.mod", 5⟩ ⟨some 7, some 7, true, 0⟩ 7 rfl (by decide) rfl (by decide)

/-- C8: the event loop of `Do` returns exactly at the first watcher error
(returning that error) or closed signal (returning success); events, of any
kind and in any number, never make it return. -/
theorem loop_termination (cfg : Orch.Cfg) (st : Orch.State) (msgs : List Orch.Msg) :
    Orch.doLoop cfg st msgs = msgs.findSome? Orch.termRes := by
  induction msgs generalizing st with
  | nil => rfl
  | cons m rest ih =>
    cases m with
    | fsEvent ev env => simpa [Orch.doLoop, Orch.termRes, List.findSome?] using ih _
    | watchErr e => simp [Orch.doLoop, Orch.termRes, List.findSome?]
    | closed => simp [Orch.doLoop, Orch.termRes, List.findSome?]

/-- Counterexample to the claim that `Kill` always clears the live handle:
when sending the interrupt signal fails, `Kill` returns the error and the
handle is left in place. -/
theorem kill_counterexample :
    (Runner.kill false ⟨some ⟨true, none⟩, 0⟩
        ⟨some "operation not permitted", none, false⟩).1.command ≠ none := by
  decide

/-- C4 (amended): on a live process handle (non-Windows), `Kill` sends the
graceful interrupt first; when that send succeeds, the forced kill happens
exactly when the process has not exited within the grace period and the
handle is cleared on completion on both paths; when the send fails, `Kill`
returns that error with the handle left in place. -/
theorem kill_graceful_escalation (r : Runner.State) (env : Runner.KillEnv)
    (c : Runner.Cmd) (h1 : r.command = some c) (h2 : c.hasProcess = true) :
    ((Runner.kill false r env).2.1.head? = some Runner.KillAct.interrupt) ∧
    (env.signalErr = none →
      ((Runner.kill false r env).1.command = none ∧
       (Runner.KillAct.forceKill ∈ (Runner.kill false r env).2.1 ↔
         env.exitedWithinGrace = false))) ∧
    (∀ e, env.signalErr = some e →
      Runner.kill false r env = (r, [Runner.KillAct.interrupt], some e)) := by
  have hk : Runner.kill false r env =
      (match env.signalErr with
       | some e => (r, [Runner.KillAct.interrupt], some e)
       | none =>
         if env.exitedWithinGrace then
           ({ r with command := none }, [Runner.KillAct.interrupt], none)
         else
           ({ r with command := none },
            [Runner.KillAct.interrupt, Runner.KillAct.forceKill], none)) := by
    unfold Runner.kill
    rw [h1]
    dsimp only
    rw [if_pos h2]
    simp
  refine ⟨?_, ?_, ?_⟩
  · rw [hk]
    rcases env.signalErr with _ | e0
    · dsimp only
      split_ifs <;> rfl
    · rfl
  · intro hnone
    rw [hk, hnone]
    dsimp only
    split_ifs with hex <;> simp [hex]
  · intro e he
    rw [hk, he]

/-- Witness for the amended `Kill` theorem: a live handle, successful
signal, no exit within the grace period: escalation and a cleared handle. -/
theorem kill_graceful_escalation_witness :
    (Runner.kill false ⟨some ⟨true, none⟩, 0⟩ ⟨none, none, false⟩).1.command = none ∧
    Runner.KillAct.forceKill ∈ (Runner.kill false ⟨some ⟨true, none⟩, 0⟩
        ⟨none, none, false⟩).2.1 := by
  have h := (kill_graceful_escalation ⟨some ⟨true, none⟩, 0⟩ ⟨none, none, false⟩
      ⟨true, none⟩ rfl rfl).2.1 rfl
  exact ⟨h.1, h.2.mpr rfl⟩

/-- One step of `IgnoreDirectory` preserves the list invariants and adds
exactly the new nonempty name. -/
theorem ignoreDirectory_inv (ds : List String) :
    ∀ l : List String, "" ∉ l → l.Nodup →
      "" ∉ ignoreDirectory l ds ∧ (ignoreDirectory l ds).Nodup ∧
      (∃ tl, ignoreDirectory l ds = l ++ tl) ∧
      (∀ d, d ∈ ignoreDirectory l ds ↔ d ∈ l ∨ (d ∈ ds ∧ d ≠ "")) := by
  induction ds with
  | nil =>
    intro l h1 h2
    exact ⟨h1, h2, ⟨[], by simp [ignoreDirectory]⟩, by simp [ignoreDirectory]⟩
  | cons d ds ih =>
    intro l h1 h2
    have hstep : ignoreDirectory l (d :: ds) =
        ignoreDirectory (if d = "" then l else appendStringIfMissing l d) ds := rfl
    by_cases hd : d = ""
    · rw [hstep, if_pos hd]
      obtain ⟨g1, g2, g3, g4⟩ := ih l h1 h2
      refine ⟨g1, g2, g3, fun x => ?_⟩
      rw [g4 x]
      subst hd
      constructor
      · rintro (hx | ⟨hx, hne⟩)
        · exact Or.inl hx
        · exact Or.inr ⟨List.mem_cons_of_mem _ hx, hne⟩
      · rintro (hx | ⟨hx, hne⟩)
        · exact Or.inl hx
        · rcases List.mem_cons.mp hx with rfl | hx
          · exact absurd rfl hne
          · exact Or.inr ⟨hx, hne⟩
    · rw [hstep, if_neg hd]
      by_cases hm : d ∈ l
      · have happ : appendStringIfMissing l d = l := by
          unfold appendStringIfMissing
          rw [if_pos hm]
        rw [happ]
        obtain ⟨g1, g2, g3, g4⟩ := ih l h1 h2
        refine ⟨g1, g2, g3, fun x => ?_⟩
        rw [g4 x]
        constructor
        · rintro (hx | ⟨hx, hne⟩)
          · exact Or.inl hx
          · exact Or.inr ⟨List.mem_cons_of_mem _ hx, hne⟩
        · rintro (hx | ⟨hx, hne⟩)
          · exact Or.inl hx
          · rcases List.mem_cons.mp hx with rfl | hx
            · exact Or.inl hm
            · exact Or.inr ⟨hx, hne⟩
      · have happ : appendStringIfMissing l d = l ++ [d] := by
          unfold appendStringIfMissing
          rw [if_neg hm]
        rw [happ]
        have h1' : "" ∉ l ++ [d] := by
          simp only [List.mem_append, List.mem_singleton]
          rintro (hx | hx)
          · exact h1 hx
          · exact hd hx.symm
        have h2' : (l ++ [d]).Nodup := by
          simp [List.nodup_append, h2, hm]
        obtain ⟨g1, g2, g3, g4⟩ := ih (l ++ [d]) h1' h2'
        refine ⟨g1, g2, ?_, fun x => ?_⟩
        · obtain ⟨tl, htl⟩ := g3
          exact ⟨d :: tl, by simpa using htl⟩
        · rw [g4 x]
          simp only [List.mem_append, List.mem_singleton, List.mem_cons,
            List.not_mem_nil, or_false]
          constructor
          · rintro ((hx | rfl) | ⟨hx, hne⟩)
            · exact Or.inl hx
            · exact Or.inr ⟨Or.inl rfl, hd⟩
            · exact Or.inr ⟨Or.inr hx, hne⟩
          · rintro (hx | ⟨rfl | hx, hne⟩)
            · exact Or.inl (Or.inl hx)
            · exact Or.inl (Or.inr rfl)
            · exact Or.inr ⟨hx, hne⟩

/-- C9: starting from a list with no empty string and no duplicates, any
`IgnoreDirectory` call preserves both invariants, only ever appends (order
of first insertion), contains exactly the old names plus the nonempty new
ones, and a call with an already-present or empty name is a no-op. -/
theorem ignoreDirectory_invariant (l ds : List String) (h1 : "" ∉ l) (h2 : l.Nodup) :
    "" ∉ ignoreDirectory l ds ∧ (ignoreDirectory l ds).Nodup ∧
    (∃ tl, ignoreDirectory l ds = l ++ tl) ∧
    (∀ d, d ∈ ignoreDirectory l ds ↔ d ∈ l ∨ (d ∈ ds ∧ d ≠ "")) ∧
    (∀ d, (d ∈ l ∨ d = "") → ignoreDirectory l [d] = l) := by
  obtain ⟨g1, g2, g3, g4⟩ := ignoreDirectory_inv ds l h1 h2
  refine ⟨g1, g2, g3, g4, fun d hd => ?_⟩
  have : ignoreDirectory l [d] = if d = "" then l else appendStringIfMissing l d := rfl
  rw [this]
  rcases hd with hd | rfl
  · split_ifs with he
    · rfl
    · unfold appendStringIfMissing
      rw [if_pos hd]
  · rw [if_pos rfl]

/-- Witness for the `IgnoreDirectory` invariant at a concrete call
sequence. -/
theorem ignoreDirectory_invariant_witness :
    "" ∉ ignoreDirectory ["node_modules"] ["vendor", "", "vendor"] ∧
    (ignoreDirectory ["node_modules"] ["vendor", "", "vendor"]).Nodup ∧
    (∃ tl, ignoreDirectory ["node_modules"] ["vendor", "", "vendor"] =
      ["node_modules"] ++ tl) ∧
    (∀ d, d ∈ ignoreDirectory ["node_modules"] ["vendor", "", "vendor"] ↔
      d ∈ ["node_modules"] ∨ (d ∈ ["vendor", "", "vendor"] ∧ d ≠ "")) ∧
    (∀ d, (d ∈ ["node_modules"] ∨ d = "") →
      ignoreDirectory ["node_modules"] [d] = ["node_modules"]) :=
  ignoreDirectory_invariant ["node_modules"] ["vendor", "", "vendor"]
    (by decide) (by decide)

/-- `needsRefresh` is true exactly on a successful stat whose modification
time is strictly after the recorded start time. -/
theorem needsRefresh_iff (s : Time) (o : Option Time) :
    Runner.needsRefresh s o = true ↔ ∃ t, o = some t ∧ s < t := by
  cases o <;> simp [Runner.needsRefresh]

/-- C10: a failed stat of the binary makes the staleness check false, so
`Run` never kills on account of staleness in that case; the staleness kill
happens exactly when the stat succeeds with a modification time strictly
after the recorded start time, and when it happens it precedes the spawn. -/
theorem run_stale_kill (iw : Bool) (r : Runner.State) (env : Runner.RunEnv) :
    (env.statBin = none →
      (Runner.needsRefresh r.starttime env.statBin = false ∧
       Runner.RunAct.staleKill ∉ (Runner.run iw r env).2.1)) ∧
    (Runner.RunAct.staleKill ∈ (Runner.run iw r env).2.1 ↔
      (∃ t, env.statBin = some t ∧ r.starttime < t)) ∧
    (Runner.RunAct.staleKill ∈ (Runner.run iw r env).2.1 →
      (Runner.run iw r env).2.1.head? = some Runner.RunAct.staleKill) := by
  by_cases hnr : Runner.needsRefresh r.starttime env.statBin = true
  · have hmem : Runner.RunAct.staleKill ∈ (Runner.run iw r env).2.1 ∧
        (Runner.run iw r env).2.1.head? = some Runner.RunAct.staleKill := by
      unfold Runner.run
      rw [if_pos hnr, if_pos hnr]
      dsimp only
      split_ifs <;> simp
    refine ⟨fun hnone => ?_, ?_, fun _ => hmem.2⟩
    · rw [hnone] at hnr
      exact absurd hnr (by simp [Runner.needsRefresh])
    · simp only [hmem.1, true_iff]
      exact (needsRefresh_iff r.starttime env.statBin).mp hnr
  · have hnmem : Runner.RunAct.staleKill ∉ (Runner.run iw r env).2.1 := by
      unfold Runner.run
      rw [if_neg hnr, if_neg hnr]
      dsimp only
      split_ifs <;> simp
    refine ⟨fun hnone => ⟨by simp [hnone, Runner.needsRefresh], hnmem⟩, ?_,
      fun hmem => absurd hmem hnmem⟩
    simp only [hnmem, false_iff]
    intro hex
    exact hnr ((needsRefresh_iff r.starttime env.statBin).mpr hex)

/-- Witness for the staleness theorem: missing binary (stat fails), live
but stale-looking state: no stale kill happens. -/
theorem run_stale_kill_witness :
    Runner.needsRefresh (0 : Time) (none : Option Time) = false ∧
    Runner.RunAct.staleKill ∉
      (Runner.run false ⟨some ⟨true, none⟩, 0⟩ ⟨none, ⟨none, none, true⟩, none, 5⟩).2.1 :=
  (run_stale_kill false ⟨some ⟨true, none⟩, 0⟩ ⟨none, ⟨none, none, true⟩, none, 5⟩).1 rfl


/-- Once some ancestor name matched, the spec-side filter keeps nothing in
the subtree: the ancestor list of every listed descendant contains it. -/
theorem allDirs_filter_none (names : List String) :
    ∀ (ts : List DirTree) (path : String) (ancs : List String),
      (∃ a ∈ ancs, a ∈ names) →
      (allDirs path ancs ts).filter (matchedNoAncestor names) = []
  | [], _, _, _ => by simp [allDirs]
  | .node n subs :: rest, path, ancs, h => by
    obtain ⟨a, ha, han⟩ := h
    have h1 := allDirs_filter_none names subs (path ++ "/" ++ n) (n :: ancs)
      ⟨a, List.mem_cons_of_mem _ ha, han⟩
    have h2 := allDirs_filter_none names rest path ancs ⟨a, ha, han⟩
    have hall : ancs.all (fun b => decide (b ∉ names)) = false := by
      rw [Bool.eq_false_iff]
      intro hall
      rw [List.all_eq_true] at hall
      have := hall a ha
      simp only [decide_eq_true_eq] at this
      exact this han
    have hhead : ¬ (matchedNoAncestor names (path ++ "/" ++ n, n, ancs) = true) := by
      show ¬ ((decide (n ∈ names) && ancs.all (fun b => decide (b ∉ names))) = true)
      rw [hall, Bool.and_false]
      simp
    simp only [allDirs]
    rw [List.filter_cons, if_neg hhead, List.filter_append, h1, h2]
    rfl

/-- Below a point where no ancestor name has matched, the walk collects
exactly what the spec-side filter keeps. -/
theorem walkForest_eq (names : List String) :
    ∀ (ts : List DirTree) (path : String) (ancs : List String),
      (∀ a ∈ ancs, a ∉ names) →
      walkForest names path ts =
        ((allDirs path ancs ts).filter (matchedNoAncestor names)).map (fun x => x.1)
  | [], _, _, _ => by simp [walkForest, allDirs]
  | .node n subs :: rest, path, ancs, h => by
    have h2 := walkForest_eq names rest path ancs h
    have hall : ancs.all (fun b => decide (b ∉ names)) = true := by
      rw [List.all_eq_true]
      intro b hb
      simpa using h b hb
    by_cases hn : n ∈ names
    · have h1 := allDirs_filter_none names subs (path ++ "/" ++ n) (n :: ancs)
        ⟨n, List.mem_cons_self _ _, hn⟩
      have hhead : matchedNoAncestor names (path ++ "/" ++ n, n, ancs) = true := by
        show (decide (n ∈ names) && ancs.all (fun b => decide (b ∉ names))) = true
        rw [hall, Bool.and_true, decide_eq_true_eq]
        exact hn
      simp only [walkForest, allDirs]
      rw [if_pos hn, List.filter_cons, if_pos hhead, List.filter_append, h1, h2]
      simp
    · have h1 := walkForest_eq names subs (path ++ "/" ++ n) (n :: ancs) (by
        intro a ha
        rcases List.mem_cons.mp ha with rfl | ha
        · exact hn
        · exact h a ha)
      have hhead : ¬ (matchedNoAncestor names (path ++ "/" ++ n, n, ancs) = true) := by
        show ¬ ((decide (n ∈ names) && ancs.all (fun b => decide (b ∉ names))) = true)
        rw [decide_eq_false hn, Bool.false_and]
        simp
      simp only [walkForest, allDirs]
      rw [if_neg hn, List.filter_cons, if_neg hhead, List.filter_append, h1, h2]
      simp

/-- C6: `dirsWithName` returns exactly the directories whose base name is
in the name list and that have no matching ancestor at or below the walk
root; a matched directory's subtree contributes nothing further, and an
empty name list yields an empty result. -/
theorem dirsWithName_spec (root : String) (t : DirTree) (names : List String) :
    dirsWithName root t names = specDirs root t names := by
  rcases t with ⟨n, subs⟩
  by_cases h0 : names = []
  · simp [dirsWithName, specDirs, h0]
  · by_cases hn : n ∈ names
    · have h1 := allDirs_filter_none names subs root [n]
        ⟨n, List.mem_singleton.mpr rfl, hn⟩
      have hhead : matchedNoAncestor names (root, n, ([] : List String)) = true := by
        show (decide (n ∈ names) && List.all [] (fun b => decide (b ∉ names))) = true
        rw [List.all_nil, Bool.and_true, decide_eq_true_eq]
        exact hn
      unfold dirsWithName specDirs
      rw [if_neg h0, if_neg h0]
      simp only [DirTree.name, DirTree.subs]
      rw [if_pos hn, List.filter_cons, if_pos hhead, h1]
      simp
    · have h1 := walkForest_eq names subs root [n] (by
        intro a ha
        rw [List.mem_singleton.mp ha]
        exact hn)
      have hhead : ¬ (matchedNoAncestor names (root, n, ([] : List String)) = true) := by
        show ¬ ((decide (n ∈ names) && List.all [] (fun b => decide (b ∉ names))) = true)
        rw [decide_eq_false hn, Bool.false_and]
        simp
      unfold dirsWithName specDirs
      rw [if_neg h0, if_neg h0]
      simp only [DirTree.name, DirTree.subs]
      rw [if_neg hn, List.filter_cons, if_neg hhead, h1]

/-- Scanning from the end, `takeWhile` collects exactly the final
slash-free run. -/
theorem takeWhile_notSlash_append (l r : List Char) (h : ∀ c ∈ l, c ≠ '/') :
    (l ++ '/' :: r).takeWhile notSlash = l := by
  induction l with
  | nil => simp [List.takeWhile_cons, notSlash]
  | cons c cs ih =>
    have hc : c ≠ '/' := h c (List.mem_cons_self _ _)
    have ih' := ih (fun x hx => h x (List.mem_cons_of_mem _ hx))
    simp [List.takeWhile_cons, notSlash, hc, ih']

/-- Companion to `takeWhile_notSlash_append` for the remainder. -/
theorem dropWhile_notSlash_append (l r : List Char) (h : ∀ c ∈ l, c ≠ '/') :
    (l ++ '/' :: r).dropWhile notSlash = '/' :: r := by
  induction l with
  | nil => simp [List.dropWhile_cons, notSlash]
  | cons c cs ih =>
    have hc : c ≠ '/' := h c (List.mem_cons_self _ _)
    have ih' := ih (fun x hx => h x (List.mem_cons_of_mem _ hx))
    simp [List.dropWhile_cons, notSlash, hc, ih']

/-- `path.Split` of a path whose final segment is slash-free cuts exactly
after that final slash. -/
theorem goSplitPathC_append (pre last : List Char) (h : ∀ c ∈ last, c ≠ '/') :
    goSplitPathC (pre ++ '/' :: last) = (pre ++ ['/'], last) := by
  have hrev : ∀ c ∈ last.reverse, c ≠ '/' := by
    intro c hc
    exact h c (List.mem_reverse.mp hc)
  unfold goSplitPathC
  rw [List.reverse_append, List.reverse_cons, List.append_assoc]
  simp only [List.singleton_append]
  rw [takeWhile_notSlash_append _ _ hrev, dropWhile_notSlash_append _ _ hrev]
  rw [List.reverse_reverse, List.reverse_cons, List.reverse_reverse]

/-- Appending one more component to a nonempty join adds one slash. -/
theorem joinSlash_append_singleton (xs : List (List Char)) (x : List Char)
    (hxs : xs ≠ []) : joinSlash (xs ++ [x]) = joinSlash xs ++ '/' :: x := by
  induction xs with
  | nil => cases hxs rfl
  | cons a as ih =>
    cases as with
    | nil => simp [joinSlash]
    | cons b bs =>
      have ih' := ih (by simp)
      simp only [List.cons_append, joinSlash, List.append_eq] at ih' ⊢
      rw [ih']
      simp

/-- Appending one more segment to a nonempty absolute path. -/
theorem mkPathC_append_singleton (segs : List (List Char)) (x : List Char)
    (hne : segs ≠ []) : mkPathC (segs ++ [x]) = mkPathC segs ++ '/' :: x := by
  unfold mkPathC
  rw [joinSlash_append_singleton segs x hne]
  rfl

/-- A slash-free character list is a single component. -/
theorem splitSlash_no_slash (l : List Char) (h : ∀ c ∈ l, c ≠ '/') :
    splitSlash l = [l] := by
  induction l with
  | nil => rfl
  | cons c cs ih =>
    have hc : c ≠ '/' := h c (List.mem_cons_self _ _)
    have ih' := ih (fun x hx => h x (List.mem_cons_of_mem _ hx))
    simp [splitSlash, hc, ih']

/-- Splitting after a slash-free head component. -/
theorem splitSlash_append (l r : List Char) (h : ∀ c ∈ l, c ≠ '/') :
    splitSlash (l ++ '/' :: r) = l :: splitSlash r := by
  induction l with
  | nil => simp [splitSlash]
  | cons c cs ih =>
    have hc : c ≠ '/' := h c (List.mem_cons_self _ _)
    have ih' := ih (fun x hx => h x (List.mem_cons_of_mem _ hx))
    simp [splitSlash, hc, ih']

/-- Splitting a join of slash-free components recovers the components. -/
theorem splitSlash_joinSlash_append (segs : List (List Char)) (r : List Char)
    (hne : segs ≠ []) (h : ∀ s ∈ segs, ∀ c ∈ s, c ≠ '/') :
    splitSlash (joinSlash segs ++ '/' :: r) = segs ++ splitSlash r := by
  induction segs with
  | nil => cases hne rfl
  | cons s ss ih =>
    cases ss with
    | nil =>
      simp only [joinSlash, List.singleton_append]
      rw [splitSlash_append s r (h s (List.mem_cons_self _ _))]
    | cons b bs =>
      have ih' := ih (by simp) (fun x hx => h x (List.mem_cons_of_mem _ hx))
      simp only [joinSlash, List.cons_append]
      rw [List.append_assoc]
      simp only [List.cons_append]
      rw [splitSlash_append s _ (h s (List.mem_cons_self _ _)), ih']
      rfl

/-- Step equation of `cleanStack`: empty and `.` components are skipped. -/
theorem cleanStack_skip (rooted : Bool) (acc : List (List Char)) (c : List Char)
    (cs : List (List Char)) (hc : c = [] ∨ c = ['.']) :
    cleanStack rooted acc (c :: cs) = cleanStack rooted acc cs := by
  rw [cleanStack.eq_def]
  dsimp only
  rw [if_pos hc]

/-- Step equation of `cleanStack`: a plain component is pushed. -/
theorem cleanStack_push (rooted : Bool) (acc : List (List Char)) (c : List Char)
    (cs : List (List Char)) (h1 : ¬ (c = [] ∨ c = ['.'])) (h2 : c ≠ ['.', '.']) :
    cleanStack rooted acc (c :: cs) = cleanStack rooted (c :: acc) cs := by
  rw [cleanStack.eq_def]
  dsimp only
  rw [if_neg h1, if_neg h2]

/-- Final equation of `cleanStack`. -/
theorem cleanStack_done (rooted : Bool) (acc : List (List Char)) :
    cleanStack rooted acc [] = acc.reverse := by
  rw [cleanStack.eq_def]

/-- Plain components are pushed one by one onto the clean stack. -/
theorem cleanStack_plain (segs : List (List Char)) (rooted : Bool) :
    ∀ (acc rest : List (List Char)),
      (∀ s ∈ segs, s ≠ [] ∧ s ≠ ['.'] ∧ s ≠ ['.', '.']) →
      cleanStack rooted acc (segs ++ rest) =
        cleanStack rooted (segs.reverse ++ acc) rest := by
  induction segs with
  | nil => intro acc rest _; rfl
  | cons s ss ih =>
    intro acc rest h
    have hs := h s (List.mem_cons_self _ _)
    have hstep : cleanStack rooted acc ((s :: ss) ++ rest) =
        cleanStack rooted (s :: acc) (ss ++ rest) := by
      simp only [List.cons_append]
      exact cleanStack_push rooted acc s (ss ++ rest)
        (by rintro (h1 | h1); exact hs.1 h1; exact hs.2.1 h1) hs.2.2
    rw [hstep, ih (s :: acc) rest (fun x hx => h x (List.mem_cons_of_mem _ hx))]
    rw [List.reverse_cons, List.append_assoc]
    rfl

/-- Cleaning an absolute path of plain segments with one trailing slash
just removes the trailing slash (the computation `path.Dir` performs on the
directory part of `Split`). -/
theorem goCleanC_mkPathC_slash (segs : List (List Char)) (hne : segs ≠ [])
    (h : ∀ s ∈ segs, s ≠ [] ∧ s ≠ ['.'] ∧ s ≠ ['.', '.'] ∧ ∀ c ∈ s, c ≠ '/') :
    goCleanC (mkPathC segs ++ ['/']) = mkPathC segs := by
  have hsplit : splitSlash (joinSlash segs ++ '/' :: ([] : List Char)) =
      segs ++ [[]] := by
    rw [splitSlash_joinSlash_append segs [] hne (fun s hs => (h s hs).2.2.2)]
    rfl
  have hss : splitSlash ('/' :: (joinSlash segs ++ '/' :: ([] : List Char))) =
      [] :: (segs ++ [[]]) := by
    rw [splitSlash, if_pos rfl, hsplit]
  have hstack : cleanStack true [] ([] :: (segs ++ [[]])) = segs := by
    have h9 : cleanStack true [] ([] :: (segs ++ [[]])) =
        cleanStack true [] (segs ++ [[]]) :=
      cleanStack_skip true [] [] (segs ++ [[]]) (Or.inl rfl)
    rw [h9, cleanStack_plain segs true [] [[]]
      (fun s hs => ⟨(h s hs).1, (h s hs).2.1, (h s hs).2.2.1⟩)]
    rw [cleanStack_skip true (segs.reverse ++ []) [] [] (Or.inl rfl)]
    rw [cleanStack_done]
    simp
  show goCleanC ('/' :: (joinSlash segs ++ '/' :: [])) = mkPathC segs
  rw [goCleanC]
  simp only [hss]
  simp [mkPathC, hstack]

/-- Rebuilding a string from its character list is the identity. -/
theorem strMk_toList (s : String) : (⟨s.toList⟩ : String) = s := by
  cases s
  rfl

/-- On Windows `defaultExecName` is the unix name plus `.exe`. -/
theorem defaultExecName_windows (p : String) :
    defaultExecName true p = defaultExecName false p ++ ".exe" := rfl

/-- C5: over any absolute path of plain segments (at least two),
`defaultExecName` returns the final segment, except that when the final
segment matches the semantic-version pattern the parent segment is used
instead; the platform `.exe` suffix is appended exactly on Windows; and the
spec's three concrete examples hold. -/
theorem defaultExecName_correct (init : List String) (parent last : String)
    (h : ∀ s ∈ init ++ [parent, last], plainSeg s) :
    (defaultExecName false (mkPath (init ++ [parent, last])) =
      (if isVersionElement last then parent else last)) ∧
    (defaultExecName true (mkPath (init ++ [parent, last])) =
      (if isVersionElement last then parent else last) ++ ".exe") ∧
    defaultExecName false "/a/b/v2" = "b" ∧
    defaultExecName false "/a/b/v1" = "v1" ∧
    defaultExecName false "/a/b/thing" = "thing" := by
  have hlast : plainSeg last := h last (by simp)
  have hparent : plainSeg parent := h parent (by simp)
  have hinit : ∀ s ∈ init ++ [parent], plainSeg s := by
    intro s hs
    apply h
    rcases List.mem_append.mp hs with hs | hs
    · exact List.mem_append.mpr (Or.inl hs)
    · rw [List.mem_singleton.mp hs]
      simp
  have hplainC : ∀ s ∈ (init ++ [parent]).map String.toList,
      s ≠ [] ∧ s ≠ ['.'] ∧ s ≠ ['.', '.'] ∧ ∀ c ∈ s, c ≠ '/' := by
    intro s hs
    rw [List.mem_map] at hs
    obtain ⟨t, ht, rfl⟩ := hs
    exact hinit t ht
  have hCne : (init ++ [parent]).map String.toList ≠ [] := by simp
  have hlastNS : ∀ c ∈ last.toList, c ≠ '/' := hlast.2.2.2
  have hparNS : ∀ c ∈ parent.toList, c ≠ '/' := hparent.2.2.2
  have hmapeq : (init ++ [parent, last]).map String.toList =
      (init ++ [parent]).map String.toList ++ [last.toList] := by
    simp
  have hmk : mkPathC ((init ++ [parent, last]).map String.toList) =
      mkPathC ((init ++ [parent]).map String.toList) ++ '/' :: last.toList := by
    rw [hmapeq, mkPathC_append_singleton _ _ hCne]
  have hsplit : goSplitPathC ((mkPath (init ++ [parent, last])).toList) =
      (mkPathC ((init ++ [parent]).map String.toList) ++ ['/'], last.toList) := by
    show goSplitPathC (mkPathC ((init ++ [parent, last]).map String.toList)) = _
    rw [hmk]
    exact goSplitPathC_append _ _ hlastNS
  have helem : (goSplitPath (mkPath (init ++ [parent, last]))).2 = last := by
    show (⟨(goSplitPathC ((mkPath (init ++ [parent, last])).toList)).2⟩ : String) = last
    rw [hsplit]
    exact strMk_toList last
  have hdir : goDir (mkPath (init ++ [parent, last])) =
      (⟨mkPathC ((init ++ [parent]).map String.toList)⟩ : String) := by
    show (⟨goCleanC ((⟨(goSplitPathC ((mkPath (init ++ [parent, last])).toList)).1⟩ :
        String).toList)⟩ : String) = _
    rw [hsplit]
    show (⟨goCleanC (mkPathC ((init ++ [parent]).map String.toList) ++ ['/'])⟩ :
        String) = _
    rw [goCleanC_mkPathC_slash _ hCne hplainC]
  have hdirsplit : (goSplitPath
      (⟨mkPathC ((init ++ [parent]).map String.toList)⟩ : String)).2 = parent := by
    show (⟨(goSplitPathC (mkPathC ((init ++ [parent]).map String.toList))).2⟩ :
        String) = parent
    cases init with
    | nil =>
      have h1 : mkPathC (([] ++ [parent]).map String.toList) =
          [] ++ '/' :: parent.toList := by
        simp [mkPathC, joinSlash]
      rw [h1, goSplitPathC_append [] parent.toList hparNS]
      exact strMk_toList parent
    | cons i is =>
      have hne2 : ((i :: is).map String.toList : List (List Char)) ≠ [] := by simp
      have h1 : ((i :: is ++ [parent]).map String.toList) =
          ((i :: is).map String.toList) ++ [parent.toList] := by simp
      rw [h1, mkPathC_append_singleton _ _ hne2, goSplitPathC_append _ _ hparNS]
      exact strMk_toList parent
  have hcore : defaultExecName false (mkPath (init ++ [parent, last])) =
      (if isVersionElement last then parent else last) := by
    show (if isVersionElement (goSplitPath (mkPath (init ++ [parent, last]))).2 then
        (goSplitPath (goDir (mkPath (init ++ [parent, last])))).2
      else (goSplitPath (mkPath (init ++ [parent, last]))).2) = _
    rw [helem, hdir, hdirsplit]
  exact ⟨hcore, by rw [defaultExecName_windows, hcore], by decide, by decide, by decide⟩

/-- Witness for `defaultExecName_correct`: the `/a/b/v2` example through
the general statement. -/
theorem defaultExecName_correct_witness :
    defaultExecName false (mkPath ["a", "b", "v2"]) = "b" := by
  have h := (defaultExecName_correct ["a"] "b" "v2" (by decide)).1
  simp only [List.cons_append, List.nil_append] at h
  rw [h]
  decide

/-- Concatenating strings concatenates their character lists. -/
theorem toList_append (s t : String) : (s ++ t).toList = s.toList ++ t.toList := by
  cases s
  cases t
  rfl

/-- A path is absolute exactly when its character list starts with a
slash. -/
theorem isAbsPath_iff (p : String) : isAbsPath p = true ↔ ∃ l, p.toList = '/' :: l := by
  cases hl : p.toList with
  | nil =>
    have hd : p.data = [] := hl
    simp [isAbsPath, hd]
  | cons c rest =>
    have hd : p.data = c :: rest := hl
    simp only [isAbsPath, hl, hd, decide_eq_true_eq]
    constructor
    · intro hc
      exact ⟨rest, by rw [hc]⟩
    · rintro ⟨l, hl2⟩
      exact (List.cons.injEq _ _ _ _).mp hl2 |>.1

/-- Cleaning a rooted character list keeps the leading slash. -/
theorem goCleanC_rooted (cs : List Char) : ∃ l, goCleanC ('/' :: cs) = '/' :: l := by
  refine ⟨joinSlash (cleanStack true [] (splitSlash ('/' :: cs))), ?_⟩
  simp [goCleanC]

/-- `path.Clean` preserves absoluteness. -/
theorem goClean_abs (p : String) (hp : isAbsPath p = true) :
    isAbsPath (goClean p) = true := by
  obtain ⟨l, hl⟩ := (isAbsPath_iff p).mp hp
  show isAbsPath ⟨goCleanC p.toList⟩ = true
  rw [hl]
  obtain ⟨m, hm⟩ := goCleanC_rooted l
  rw [hm]
  simp [isAbsPath]

/-- `filepath.Abs` returns an absolute path whenever the working directory
is absolute. -/
theorem goAbs_abs (cwd p : String) (hcwd : isAbsPath cwd = true) :
    isAbsPath (goAbs cwd p) = true := by
  unfold goAbs
  split_ifs with hp
  · exact goClean_abs p hp
  · apply goClean_abs
    obtain ⟨l, hl⟩ := (isAbsPath_iff cwd).mp hcwd
    rw [isAbsPath_iff]
    refine ⟨l ++ ('/' :: p.toList), ?_⟩
    rw [toList_append, toList_append, hl]
    simp

/-- C7: with no configured output, `Do` derives the output from the trimmed
nonempty module identifier when `go list -m` succeeded, otherwise from the
absolute watched directory, through `defaultExecName`, and makes it
absolute; in every case the resolved output is absolute (given an absolute
working directory), and it is that resolved value which becomes the app
runner's binary, the watcher's ignore entry, and the `-o` build argument. -/
theorem output_resolution (iw : Bool) (cfgOutput : String) (env : Orch.OutputEnv)
    (directory cwd : String) (isTest : Bool) (gba : List String)
    (hcwd : isAbsPath cwd = true) :
    (cfgOutput = "" →
      Orch.resolveOutput iw cfgOutput env directory cwd =
        goAbs cwd (defaultExecName iw
          (match env.goListOut with
           | some raw => if goTrimSpace raw ≠ "" then goTrimSpace raw else directory
           | none => directory))) ∧
    isAbsPath (Orch.resolveOutput iw cfgOutput env directory cwd) = true ∧
    (Orch.doSetup iw cfgOutput env directory cwd isTest gba).appBin =
      Orch.resolveOutput iw cfgOutput env directory cwd ∧
    (Orch.doSetup iw cfgOutput env directory cwd isTest gba).watcherIgnore =
      Orch.resolveOutput iw cfgOutput env directory cwd ∧
    (isTest = false →
      (Orch.doSetup iw cfgOutput env directory cwd isTest gba).buildArgs =
        "build" :: "-o" ::
          Orch.resolveOutput iw cfgOutput env directory cwd :: gba) := by
  refine ⟨?_, ?_, rfl, rfl, fun ht => ?_⟩
  · intro h0
    unfold Orch.resolveOutput
    rw [if_pos h0]
    rcases hg : env.goListOut with _ | raw
    · simp
    · by_cases hts : goTrimSpace raw = "" <;> simp [hts]
  · unfold Orch.resolveOutput
    exact goAbs_abs cwd _ hcwd
  · simp [Orch.doSetup, ht]

/-- Witness for the output-resolution theorem at a concrete input. -/
theorem output_resolution_witness :
    isAbsPath (Orch.resolveOutput false "" ⟨some "example.com/app\n"⟩
      "/work/proj" "/home") = true ∧
    Orch.resolveOutput false "" ⟨some "example.com/app\n"⟩ "/work/proj" "/home" =
      goAbs "/home" (defaultExecName false "app") := by
  have h := output_resolution false "" ⟨some "example.com/app\n"⟩ "/work/proj" "/home"
    false [] (by decide)
  refine ⟨h.2.1, ?_⟩
  have h1 := h.1 rfl
  rw [h1]
  decide
